import Mathlib

/-!
Verification of the watcher/minifier pipeline (`minify.ts`) of the
`ronchin/portfolio` repository.

The TypeScript source is shallowly embedded here.  Paths and file contents
are `List Char` (POSIX-style relative paths, as produced by the repository's
own directory scanner; `joinPath` is the non-normalising fragment of the
std `join` that those paths exercise).  The filesystem is an association
list from paths to `FileInfo` (content and optional mtime); a missing entry
models `Deno.stat` / `Deno.readTextFile` throwing.  The external minifiers
(lightningcss `transform`, terser `minify`) are an abstract `Oracle`.
Text-level helpers (`stripDefImports`, `rtlSubstitute`, `postprocessDefs`,
`firstRuleScan`) are faithful executable translations of the concrete regex
replacements of the source; scanning recursions use an explicit fuel equal
to the input length, which is always sufficient because every step consumes
at least one character.
-/

/-- Whitespace test used for the JavaScript regex class `\s` (ASCII part). -/
def isWs (c : Char) : Bool :=
  c = ' ' || c = '\t' || c = '\n' || c = '\r' || c = '\x0b' || c = '\x0c'

/-- The single-quote character (kept out of character-literal syntax). -/
def squote : Char := Char.ofNat 39

/-- The double-quote character (kept out of character-literal syntax). -/
def dquote : Char := Char.ofNat 34

/-- `isPfx p l` is `String.startsWith` on character lists. -/
def isPfx : List Char → List Char → Bool
  | [], _ => true
  | _ :: _, [] => false
  | a :: as, b :: bs => if a = b then isPfx as bs else false

/-- `isSfx q l` is `String.endsWith` on character lists. -/
def isSfx (q l : List Char) : Bool := isPfx q.reverse l.reverse

/-- `containsSub p l` is `String.includes` on character lists. -/
def containsSub (p : List Char) : List Char → Bool
  | [] => isPfx p []
  | c :: cs => isPfx p (c :: cs) || containsSub p cs

/-- `findSub p l` is `String.indexOf` on character lists (`none` for `-1`). -/
def findSub (p : List Char) : List Char → Option Nat
  | [] => if isPfx p [] then some 0 else none
  | c :: cs => if isPfx p (c :: cs) then some 0 else (findSub p cs).map (· + 1)

/-- `String.indexOf` with a start index (`finalCode.indexOf(x, i)`). -/
def findFrom (l p : List Char) (i : Nat) : Option Nat :=
  (findSub p (l.drop i)).map (· + i)

/-- `String.trim` (ASCII whitespace). -/
def trimStr (l : List Char) : List Char :=
  ((l.dropWhile isWs).reverse.dropWhile isWs).reverse

/-- First line of a text: `s.split('\n')[0]`. -/
def takeLine (l : List Char) : List Char := l.takeWhile (fun c => c ≠ '\n')

/-- `Set.add` on a list model of a JavaScript `Set`. -/
def setAdd (x : List Char) (l : List (List Char)) : List (List Char) :=
  if x ∈ l then l else x :: l

/-- `Set.delete` on a list model of a JavaScript `Set`. -/
def setDelete (l : List (List Char)) (x : List Char) : List (List Char) :=
  l.filter (fun a => a ≠ x)

/-- Splits a list around the LAST occurrence of `c`:
`breakLast c l = some (b, a)` iff `l = b ++ c :: a` with `c ∉ a`. -/
def breakLast (c : Char) : List Char → Option (List Char × List Char)
  | [] => none
  | x :: xs =>
    match breakLast c xs with
    | some (b, a) => some (x :: b, a)
    | none => if x = c then some ([], xs) else none

/-- Result of the std-path `parse` on a POSIX path. -/
structure ParsedPath where
  dir : List Char
  name : List Char
  ext : List Char
deriving DecidableEq

/-- Splits a basename into `(name, ext)` following node's `path.parse`
(the extension starts at the last dot, except for a leading dot). -/
def splitBase (base : List Char) : List Char × List Char :=
  match breakLast '.' base with
  | some (n, e) => if n = [] then (base, []) else (n, '.' :: e)
  | none => (base, [])

/-- `parse` from the std path module, for the relative POSIX paths the
pipeline manipulates. -/
def parsePath (p : List Char) : ParsedPath :=
  match breakLast '/' p with
  | some (d, b) => ⟨d, (splitBase b).1, (splitBase b).2⟩
  | none => ⟨[], (splitBase p).1, (splitBase p).2⟩

/-- `join` from the std path module (non-normalising fragment). -/
def joinPath (d f : List Char) : List Char :=
  if d = [] then f else d ++ '/' :: f

/-- `parse(p).base`: basename with extension. -/
def baseOf (p : List Char) : List Char := (parsePath p).name ++ (parsePath p).ext

/-- `extname(p).toLowerCase()`. -/
def extnameLower (p : List Char) : List Char := ((parsePath p).ext).map Char.toLower

/-- `RTL_CONFIG.enabled`. -/
def RTL_enabled : Bool := true

/-- `RTL_CONFIG.generateSeparateFiles`. -/
def RTL_generateSeparateFiles : Bool := true

/-- `RTL_CONFIG.rtlSuffix`. -/
def rtlSuffixStr : List Char := ".rtl".data

/-- `CSS_EXT`. -/
def CSS_EXT : List Char := ".css".data

/-- `JS_EXT`. -/
def JS_EXT : List Char := ".js".data

/-- `getDestPath` (minify.ts, lines 171-175): destination path of the
minified artifact, `join(dir, name + rtlSuffix? + ".min" + ext)`. -/
def getDestPath (filePath : List Char) (isRtl : Bool) : List Char :=
  joinPath (parsePath filePath).dir
    ((parsePath filePath).name ++ (if isRtl then rtlSuffixStr else []) ++
      ".min".data ++ (parsePath filePath).ext)

/-- A filesystem entry: content and optional mtime (`stat.mtime` may be null). -/
structure FileInfo where
  content : List Char
  mtime : Option Nat
deriving DecidableEq

/-- The filesystem: an association list from paths to entries; a missing
entry models `Deno.stat`/`Deno.readTextFile` throwing for that path. -/
def FS : Type := List (List Char × FileInfo)

instance : DecidableEq FS := by unfold FS; infer_instance

/-- `Deno.stat` (and `readTextFile`) on the association-list filesystem. -/
def statFS : FS → List Char → Option FileInfo
  | [], _ => none
  | (q, fi) :: rest, p => if q = p then some fi else statFS rest p

/-- `Deno.writeTextFile` at time `now`: upserts the entry, stamping `now`. -/
def fsWrite : FS → List Char → List Char → Nat → FS
  | [], p, content, now => [(p, ⟨content, some now⟩)]
  | (q, g) :: rest, p, content, now =>
    if q = p then (p, ⟨content, some now⟩) :: rest
    else (q, g) :: fsWrite rest p content now

/-- `mtime || new Date(0)`. -/
def mtimeD (fi : FileInfo) : Nat := fi.mtime.getD 0

/-- `isSourceNewer` (minify.ts, lines 180-224): staleness check.  Returns
`true` when the source stat fails, when the main minified artifact is
missing, when (CSS with RTL enabled) the RTL artifact is missing, or when
the source mtime is strictly greater than the relevant artifact's mtime. -/
def isSourceNewer (fs : FS) (sourcePath : List Char) : Bool :=
  match statFS fs sourcePath with
  | none => true
  | some sourceStats =>
    match statFS fs (getDestPath sourcePath false) with
    | none => true
    | some mainMinStats =>
      if extnameLower sourcePath = CSS_EXT ∧ RTL_enabled = true ∧
          RTL_generateSeparateFiles = true then
        match statFS fs (getDestPath sourcePath true) with
        | none => true
        | some rtlMinStats =>
          decide (mtimeD sourceStats > mtimeD mainMinStats) ||
            decide (mtimeD sourceStats > mtimeD rtlMinStats)
      else
        decide (mtimeD sourceStats > mtimeD mainMinStats)

/-- Claim C2's staleness condition, phrased from the spec's words (the
spec-side definition of a refinement claim, to be compared with the
source-side `isSourceNewer`): stale iff the stat on the source fails
(fail-open), or the main minified artifact is missing, or — for CSS with
RTL generation enabled — the RTL artifact is missing, or the source mtime
is strictly greater than the mtime of a relevant artifact (the main one,
or the RTL one when relevant). -/
def isStaleSpec (fs : FS) (p : List Char) : Prop :=
  statFS fs p = none
  ∨ statFS fs (getDestPath p false) = none
  ∨ ((extnameLower p = CSS_EXT ∧ RTL_enabled = true ∧ RTL_generateSeparateFiles = true)
      ∧ statFS fs (getDestPath p true) = none)
  ∨ (∃ s m, statFS fs p = some s ∧ statFS fs (getDestPath p false) = some m ∧
      mtimeD m < mtimeD s)
  ∨ ((extnameLower p = CSS_EXT ∧ RTL_enabled = true ∧ RTL_generateSeparateFiles = true)
      ∧ ∃ s r, statFS fs p = some s ∧ statFS fs (getDestPath p true) = some r ∧
        mtimeD r < mtimeD s)

/-- Greedy matcher for `(?:(?:\.\.\/)+)?`: consumes leading `../` repetitions. -/
def matchDots : List Char → List Char
  | '.' :: '.' :: '/' :: rest => matchDots rest
  | l => l

/-- `stripPfx pat l` consumes the literal `pat` or fails. -/
def stripPfx : List Char → List Char → Option (List Char)
  | [], l => some l
  | _ :: _, [] => none
  | p :: ps, c :: cs => if p = c then stripPfx ps cs else none

/-- One attempt of the import regex
`@import\s+(['"])(?:(?:\.\.\/)+)?assets\/css\/definitions\.css\1\s*;`
at the head of the list; returns the rest after the match. -/
def tryImportMatch (l : List Char) : Option (List Char) :=
  match stripPfx "@import".data l with
  | none => none
  | some r1 =>
    let ws := r1.takeWhile isWs
    if ws = [] then none
    else
      match r1.drop ws.length with
      | q :: r3 =>
        if q = squote ∨ q = dquote then
          match stripPfx "assets/css/definitions.css".data (matchDots r3) with
          | none => none
          | some r5 =>
            match r5 with
            | q2 :: r6 =>
              if q2 = q then
                match r6.dropWhile isWs with
                | ';' :: r8 => some r8
                | _ => none
              else none
            | [] => none
        else none
      | [] => none

/-- Fuelled scanner for the global regex replacement with the empty string:
each position either begins a match (which is dropped) or is kept. -/
def stripGo : Nat → List Char → List Char
  | 0, l => l
  | fuel + 1, l =>
    match l with
    | [] => []
    | c :: cs =>
      match tryImportMatch (c :: cs) with
      | some rest => stripGo fuel rest
      | none => c :: stripGo fuel cs

/-- `input.replace(importRegex, '')` (minify.ts, lines 67-68). -/
def stripDefImports (input : List Char) : List Char := stripGo input.length input

/-- `join(Deno.cwd(), "assets/css/definitions.css")`. -/
def definitionsPath (cwd : List Char) : List Char :=
  joinPath cwd "assets/css/definitions.css".data

/-- Definitions loading (minify.ts, lines 54-63): read failure leaves the
content empty; otherwise a trailing newline is ensured. -/
def readDefinitions (fs : FS) (cwd : List Char) : List Char :=
  match statFS fs (definitionsPath cwd) with
  | none => []
  | some fi => if isSfx ['\n'] fi.content then fi.content else fi.content ++ ['\n']

/-- The two `console.warn` sites of the definitions-removal post-processing. -/
inductive Warn where
  | noPrecise
  | noMarker
deriving DecidableEq

/-- Result of a transform stage: minified code and optional source map. -/
structure CssOut where
  code : List Char
  map : Option (List Char)
deriving DecidableEq

/-- The external engines (lightningcss `transform`, terser `minify`),
abstract: they receive the filename and the full input text. -/
structure Oracle where
  transformCss : List Char → List Char → Bool → Except Unit CssOut
  terserMinify : List Char → List Char → Except Unit (Option (List Char) × Option (List Char))

/-- One regex-anchor attempt of `/^\s*([@.]|\*|html|body|:root)/`:
greedy `\s*`, then the first matching alternative; the returned text is the
whole match (leading whitespace included). -/
def firstRuleAt (l : List Char) : Option (List Char) :=
  let ws := l.takeWhile isWs
  match l.dropWhile isWs with
  | '@' :: _ => some (ws ++ ['@'])
  | '.' :: _ => some (ws ++ ['.'])
  | '*' :: _ => some (ws ++ ['*'])
  | rest =>
    if isPfx "html".data rest then some (ws ++ "html".data)
    else if isPfx "body".data rest then some (ws ++ "body".data)
    else if isPfx ":root".data rest then some (ws ++ ":root".data)
    else none

/-- Anchors after each newline for the multiline `^`. -/
def firstRuleGo : List Char → Option (List Char)
  | [] => none
  | c :: cs =>
    if c = '\n' then
      match firstRuleAt cs with
      | some m => some m
      | none => firstRuleGo cs
    else firstRuleGo cs

/-- `cleanedInput.match(/^\s*([@.]|\*|html|body|:root)/m)` — the first
line-anchored match, as the matched text. -/
def firstRuleScan (l : List Char) : Option (List Char) :=
  match firstRuleAt l with
  | some m => some m
  | none => firstRuleGo l

/-- The definitions-removal post-processing (minify.ts, lines 104-125):
locate the first line of the definitions in the minified output, then the
input's first-rule marker after it, and cut there; the two `console.warn`
branches are reported, the two silent branches are not. -/
def postprocessDefs (definitionsContent cleanedInput finalCode : List Char) :
    List Char × List Warn :=
  if definitionsContent ≠ [] ∧ isPfx (trimStr definitionsContent) finalCode = true then
    match findSub (takeLine definitionsContent) finalCode with
    | none => (finalCode, [])
    | some defEndIndex =>
      match firstRuleScan cleanedInput with
      | some originalFirstRuleStart =>
        match findFrom finalCode originalFirstRuleStart defEndIndex with
        | some actualStartInMinified => (finalCode.drop actualStartInMinified, [])
        | none => (finalCode, [Warn.noPrecise])
      | none => (finalCode, [Warn.noMarker])
  else (finalCode, [])

/-- `minifyCss` (minify.ts, lines 51-141): definitions handling, import
strip, external transform, definitions-removal post-processing.  Errors of
the external transform are rethrown. -/
def minifyCss (fs : FS) (cwd : List Char) (oracle : Oracle)
    (input filePath : List Char) (isRtl : Bool) :
    Except Unit (CssOut × List Warn) :=
  let definitionsContent := readDefinitions fs cwd
  let cleanedInput := stripDefImports input
  let fullInput := definitionsContent ++ cleanedInput
  match oracle.transformCss filePath fullInput isRtl with
  | Except.error e => Except.error e
  | Except.ok out =>
    let r := postprocessDefs definitionsContent cleanedInput out.code
    Except.ok (⟨r.1, out.map⟩, r.2)

/-- The text handed to the external CSS minifier: definitions content
prepended to the import-stripped input. -/
def fullInputOf (fs : FS) (cwd : List Char) (input : List Char) : List Char :=
  readDefinitions fs cwd ++ stripDefImports input

/-- Fuelled scanner for a global literal replacement (`String.replace` with
the `g` flag and a literal pattern). -/
def replaceAllGo (pat repl : List Char) : Nat → List Char → List Char
  | 0, l => l
  | fuel + 1, l =>
    match l with
    | [] => []
    | c :: cs =>
      if isPfx pat (c :: cs) ∧ pat ≠ [] then
        repl ++ replaceAllGo pat repl fuel ((c :: cs).drop pat.length)
      else c :: replaceAllGo pat repl fuel cs

/-- `s.replace(/pat/g, repl)` for a literal pattern. -/
def replaceAll (pat repl l : List Char) : List Char :=
  replaceAllGo pat repl l.length l

/-- One attempt of `head` + `\s*` + `tailPat` at the head of the list
(for `/text-align:\s*left/` and `/text-align:\s*right/`). -/
def taMatch (head tailPat : List Char) (l : List Char) : Option (List Char) :=
  if isPfx head l then
    let r2 := (l.drop head.length).dropWhile isWs
    if isPfx tailPat r2 then some (r2.drop tailPat.length) else none
  else none

/-- Fuelled scanner for the `text-align` replacements. -/
def taGo (head tailPat repl : List Char) : Nat → List Char → List Char
  | 0, l => l
  | fuel + 1, l =>
    match l with
    | [] => []
    | c :: cs =>
      match taMatch head tailPat (c :: cs) with
      | some rest => repl ++ taGo head tailPat repl fuel rest
      | none => c :: taGo head tailPat repl fuel cs

/-- `s.replace(/head\s*tailPat/g, repl)`. -/
def taReplace (head tailPat repl l : List Char) : List Char :=
  taGo head tailPat repl l.length l

/-- The ordered physical-to-logical substitutions of `generateRtlCss`
(minify.ts, lines 236-246), in source order. -/
def rtlSubstitute (l : List Char) : List Char :=
  taReplace "text-align:".data "right".data "text-align: end".data (
  taReplace "text-align:".data "left".data "text-align: start".data (
  replaceAll "right:".data "inset-inline-end:".data (
  replaceAll "left:".data "inset-inline-start:".data (
  replaceAll "border-right:".data "border-inline-end:".data (
  replaceAll "border-left:".data "border-inline-start:".data (
  replaceAll "padding-right:".data "padding-inline-end:".data (
  replaceAll "padding-left:".data "padding-inline-start:".data (
  replaceAll "margin-right:".data "margin-inline-end:".data (
  replaceAll "margin-left:".data "margin-inline-start:".data l)))))))))

/-- The fixed `[dir="rtl"]` rule block prepended by `generateRtlCss`
(minify.ts, lines 249-259). -/
def rtlRules : List Char :=
  "\n/* RTL-specific styles */\n[dir=\"rtl\"] \x7b\n    direction: rtl;\n\x7d\n\n[dir=\"rtl\"] .transform-x \x7b\n    transform: scaleX(-1);\n\x7d\n\n".data

/-- `generateRtlCss` (minify.ts, lines 229-268): substitute, prepend the
RTL rules, delegate to `minifyCss` with the RTL flag; errors rethrown. -/
def generateRtlCss (fs : FS) (cwd : List Char) (oracle : Oracle)
    (input filePath : List Char) : Except Unit (CssOut × List Warn) :=
  minifyCss fs cwd oracle (rtlRules ++ rtlSubstitute input) filePath true

/-- `minifyJavaScript` (minify.ts, lines 147-166): external terser call;
`result.code || input` falls back to the input on a missing/empty result. -/
def minifyJavaScript (oracle : Oracle) (input filePath : List Char) :
    Except Unit CssOut :=
  match oracle.terserMinify input filePath with
  | Except.error e => Except.error e
  | Except.ok (codeOpt, mapOpt) =>
    Except.ok ⟨(match codeOpt with
      | none => input
      | some c => if c = [] then input else c), mapOpt⟩

/-- `/*# sourceMappingURL=base */` comment appended to CSS artifacts. -/
def cssMapComment (mapFilePath : List Char) : List Char :=
  "\n/*# sourceMappingURL=".data ++ baseOf mapFilePath ++ " */".data

/-- `//# sourceMappingURL=base` comment appended to JS artifacts. -/
def jsMapComment (mapFilePath : List Char) : List Char :=
  "\n//# sourceMappingURL=".data ++ baseOf mapFilePath

/-- Mutable state threaded through `processFile`: the filesystem, the
`processingFiles` in-flight set, and the current clock used for writes. -/
structure PState where
  fs : FS
  processing : List (List Char)
  now : Nat
deriving DecidableEq

/-- `Deno.writeTextFile` on the process state. -/
def writeFS (st : PState) (p content : List Char) : PState :=
  { st with fs := fsWrite st.fs p content st.now }

/-- The `try` body of `processFile` (minify.ts, lines 297-398), entered
after the path has been added to the in-flight set.  The first component is
the JavaScript return value: `some b` for `return b`, `none` for the bare
`return;` of the unsupported-extension branch (which yields `undefined`). -/
def processBody (oracle : Oracle) (cwd : List Char) (st : PState)
    (filePath : List Char) : Option Bool × PState :=
  if extnameLower filePath ≠ CSS_EXT ∧ extnameLower filePath ≠ JS_EXT then
    (none, st)
  else
    match statFS st.fs filePath with
    | none => (some false, st)
    | some fi =>
      let input := fi.content
      let outputPath := getDestPath filePath false
      if extnameLower filePath = CSS_EXT then
        match minifyCss st.fs cwd oracle input filePath false with
        | Except.error _ => (some false, st)
        | Except.ok (ltrResult, _) =>
          let ltrOutputPath := getDestPath filePath false
          let ltrMapFilePath := ltrOutputPath ++ ".map".data
          let st1 := writeFS st ltrOutputPath
            (ltrResult.code ++ cssMapComment ltrMapFilePath)
          let st2 := match ltrResult.map with
            | some m => writeFS st1 ltrMapFilePath m
            | none => st1
          let st3 :=
            match generateRtlCss st2.fs cwd oracle input filePath with
            | Except.error _ => st2
            | Except.ok (rtlResult, _) =>
              let rtlOutputPath := getDestPath filePath true
              let rtlMapFilePath := rtlOutputPath ++ ".map".data
              let st2a := writeFS st2 rtlOutputPath
                (rtlResult.code ++ cssMapComment rtlMapFilePath)
              match rtlResult.map with
              | some m => writeFS st2a rtlMapFilePath m
              | none => st2a
          (some true, st3)
      else
        match minifyJavaScript oracle input filePath with
        | Except.error _ => (some false, st)
        | Except.ok res =>
          let mapFilePath := outputPath ++ ".map".data
          let st1 := writeFS st outputPath (res.code ++ jsMapComment mapFilePath)
          let st2 := match res.map with
            | some m => writeFS st1 mapFilePath m
            | none => st1
          (some true, st2)

/-- `processFile` (minify.ts, lines 273-403): in-flight guard, derived-name
guard, freshness guard, then the `try/finally` around `processBody` with
guaranteed removal from the in-flight set. -/
def processFile (oracle : Oracle) (cwd : List Char) (st : PState)
    (filePath : List Char) (force : Bool) : Option Bool × PState :=
  if filePath ∈ st.processing then (some false, st)
  else if containsSub ".min".data (parsePath filePath).name then (some false, st)
  else if force = false ∧ isSourceNewer st.fs filePath = false then (some false, st)
  else
    let st1 : PState := { st with processing := setAdd filePath st.processing }
    let r := processBody oracle cwd st1 filePath
    (r.1, { r.2 with processing := setDelete r.2.processing filePath })

/-- Watcher-side state: the `watchedDirectories` map from `dirKey` strings
to per-watcher suppression sets. -/
structure WatchState where
  watched : List (List Char × List (List Char))
deriving DecidableEq

/-- The template string `directory + ":" + fileExtension`. -/
def dirKeyOf (directory fileExtension : List Char) : List Char :=
  directory ++ ':' :: fileExtension

/-- `watchedDirectories.get(dirKey)`. -/
def lookupW : List (List Char × List (List Char)) → List Char → Option (List (List Char))
  | [], _ => none
  | (k, s) :: rest, key => if k = key then some s else lookupW rest key

/-- Replaces the set stored under a key (mutation of the map's set). -/
def updateW : List (List Char × List (List Char)) → List Char → List (List Char) →
    List (List Char × List (List Char))
  | [], _, _ => []
  | (k, s) :: rest, key, v =>
    if k = key then (key, v) :: rest else (k, s) :: updateW rest key v

/-- One modify/create event of `watchDirectory` (minify.ts, lines 464-496):
extension filter, derived-name filter, then the suppression check against
`watchedDirectories.get(directory + ":" + fileExtension)`.  The first
component records the `processFile` invocation this event performs:
`some (path, force)`, or `none` when the event is dropped.  The timed
removal of the suppression entry is a separate transition, out of scope of
the claims settled here. -/
def handleWatchEvent (ws : WatchState) (directory fileExtension path : List Char) :
    Option (List Char × Bool) × WatchState :=
  if isSfx fileExtension path = false then (none, ws)
  else if containsSub ".min".data (parsePath path).name then (none, ws)
  else
    match lookupW ws.watched (dirKeyOf directory fileExtension) with
    | some watchedFiles =>
      if path ∈ watchedFiles then (none, ws)
      else
        (some (path, true),
          ⟨updateW ws.watched (dirKeyOf directory fileExtension)
            (setAdd path watchedFiles)⟩)
    | none => (some (path, true), ws)

/-- Effect of one colon-anchored global replacement (`pat = q ++ ":"`,
`repl = r₀ ++ ":"`) on one colon-free segment that is followed by a colon:
when the pattern body `q` is a suffix of the segment it is replaced by
`r₀`, otherwise the segment is untouched. -/
def substSeg (q r₀ s : List Char) : List Char :=
  if isSfx q s then s.take (s.length - q.length) ++ r₀ else s

/-- The relative prefix `../` repeated `k` times. -/
def dotsRep : Nat → List Char
  | 0 => []
  | k + 1 => "../".data ++ dotsRep k

/-- A definitions-import statement with `k` leading `../` segments and
quote character `q`: `@import q(../)^k assets/css/definitions.css q;`. -/
def importStmt (k : Nat) (q : Char) : List Char :=
  "@import ".data ++ q :: (dotsRep k ++ "assets/css/definitions.css".data ++ q :: [';'])

/-- An oracle whose engines always fail (used where the engines are
irrelevant to the statement). -/
def oracleNone : Oracle := ⟨fun _ _ _ => Except.error (), fun _ _ => Except.error ()⟩

/-- Working directory used by concrete instances. -/
def cwd0 : List Char := []

/-- Concrete state for the idempotence instance: the source and both CSS
artifacts exist, artifact mtimes at least the source mtime. -/
def stC3 : PState :=
  ⟨[("a.css".data, ⟨".x".data, some 5⟩),
    ("a.min.css".data, ⟨".y".data, some 6⟩),
    ("a.rtl.min.css".data, ⟨".z".data, some 7⟩)], [], 9⟩

/-- Concrete filesystem for the silent-failure counterexample of the
definitions removal: the definitions file starts with whitespace, so its
first line never occurs in the minified output. -/
def fsC4 : FS := [(definitionsPath cwd0, ⟨"  z\nQ\n".data, some 0⟩)]

/-- Oracle for the silent-failure counterexample: the minifier returns the
definitions with their leading whitespace collapsed, followed by the rule. -/
def oracleC4 : Oracle :=
  ⟨fun _ _ _ => Except.ok ⟨"z\nQ.a".data, none⟩, fun _ _ => Except.error ()⟩

/-- The `./`-prefixed import statement that the regex fails to match. -/
def dotSlashImport : List Char :=
  "@import \"./assets/css/definitions.css\";".data

/-- Concrete state for the RTL-failure instance. -/
def stC7 : PState := ⟨[("a.css".data, ⟨".a x".data, some 3⟩)], [], 8⟩

/-- Oracle for the RTL-failure instance: LTR transforms succeed unchanged,
RTL transforms throw. -/
def oracleC7 : Oracle :=
  ⟨fun _ code isRtl => if isRtl then Except.error () else Except.ok ⟨code, none⟩,
    fun _ _ => Except.error ()⟩

/-- Concrete state for the undefined-return failing input. -/
def stC8 : PState := ⟨[], [], 0⟩

/-- Concrete state whose in-flight set already holds the path. -/
def stC9 : PState := ⟨[], ["a.css".data], 0⟩

/-- Concrete watcher state with one registered key and one suppressed path. -/
def wsC10 : WatchState :=
  ⟨[(dirKeyOf "assets/css".data ".css".data, ["assets/css/a.css".data])]⟩

/-! ### List lemmas: prefixes, suffixes, substring search -/

theorem isPfx_append_self (p r : List Char) : isPfx p (p ++ r) = true := by
  induction p with
  | nil => rfl
  | cons a as ih => simp [isPfx, ih]

theorem isPfx_iff (p l : List Char) : isPfx p l = true ↔ ∃ r, l = p ++ r := by
  induction p generalizing l with
  | nil => simp [isPfx]
  | cons a as ih =>
    cases l with
    | nil =>
      simp only [isPfx, List.cons_append]
      constructor
      · intro h; cases h
      · rintro ⟨r, h⟩; cases h
    | cons b bs =>
      constructor
      · intro h
        simp only [isPfx] at h
        by_cases hab : a = b
        · subst hab
          rcases (ih bs).mp (by rwa [if_pos rfl] at h) with ⟨r, rfl⟩
          exact ⟨r, rfl⟩
        · rw [if_neg hab] at h; cases h
      · rintro ⟨r, hr⟩
        rw [List.cons_append] at hr
        injection hr with h1 h2
        subst h1
        simp only [isPfx, if_pos rfl]
        exact (ih bs).mpr ⟨r, h2⟩

theorem isPfx_mem {p l : List Char} (h : isPfx p l = true) : ∀ x ∈ p, x ∈ l := by
  rcases (isPfx_iff p l).mp h with ⟨r, rfl⟩
  intro x hx
  exact List.mem_append.mpr (Or.inl hx)

theorem isPfx_le (p a b : List Char) (h : p.length ≤ a.length) :
    isPfx p (a ++ b) = isPfx p a := by
  induction p generalizing a with
  | nil => simp [isPfx]
  | cons x xs ih =>
    cases a with
    | nil => simp at h
    | cons y ys =>
      simp only [List.cons_append, isPfx]
      by_cases hxy : x = y
      · simp only [if_pos hxy]
        exact ih ys (by simpa using Nat.le_of_succ_le_succ (by simpa using h))
      · simp [if_neg hxy]

theorem isPfx_gt {p a b : List Char} (h : isPfx p (a ++ b) = true)
    (hl : a.length ≤ p.length) : isPfx a p = true := by
  induction a generalizing p with
  | nil => rfl
  | cons y ys ih =>
    cases p with
    | nil => simp at hl
    | cons x xs =>
      simp only [List.cons_append, isPfx] at h
      by_cases hxy : x = y
      · subst hxy
        simp only [isPfx, if_pos rfl]
        exact ih (by simpa [isPfx] using h) (by simpa using Nat.le_of_succ_le_succ (by simpa using hl))
      · rw [if_neg hxy] at h; cases h

theorem isSfx_iff (q l : List Char) : isSfx q l = true ↔ ∃ t, l = t ++ q := by
  unfold isSfx
  rw [isPfx_iff]
  constructor
  · rintro ⟨r, hr⟩
    refine ⟨r.reverse, ?_⟩
    have := congrArg List.reverse hr
    simpa using this
  · rintro ⟨t, rfl⟩
    exact ⟨t.reverse, by simp⟩

theorem isSfx_append_self (t q : List Char) : isSfx q (t ++ q) = true :=
  (isSfx_iff q (t ++ q)).mpr ⟨t, rfl⟩

theorem isSfx_le (q X f : List Char) (h : q.length ≤ f.length) :
    isSfx q (X ++ f) = isSfx q f := by
  unfold isSfx
  rw [List.reverse_append]
  exact isPfx_le q.reverse f.reverse X.reverse (by simpa using h)

theorem isSfx_gt {q X f : List Char} (h : isSfx q (X ++ f) = true)
    (hl : f.length ≤ q.length) : isSfx f q = true := by
  unfold isSfx at *
  rw [List.reverse_append] at h
  exact isPfx_gt h (by simpa using hl)

theorem containsSub_mem {p l : List Char} (h : containsSub p l = true) :
    ∀ x ∈ p, x ∈ l := by
  induction l with
  | nil =>
    cases p with
    | nil => intro x hx; cases hx
    | cons a as => simp [containsSub, isPfx] at h
  | cons c cs ih =>
    simp only [containsSub, Bool.or_eq_true] at h
    rcases h with h | h
    · exact isPfx_mem h
    · intro x hx; exact List.mem_cons_of_mem c (ih h x hx)

theorem containsSub_append_self (X p Y : List Char) :
    containsSub p (X ++ p ++ Y) = true := by
  induction X with
  | nil =>
    cases p with
    | nil => cases Y <;> simp [containsSub, isPfx]
    | cons a as =>
      simp only [List.nil_append, List.cons_append, containsSub, Bool.or_eq_true]
      exact Or.inl (by simpa using isPfx_append_self (a :: as) Y)
  | cons x xs ih =>
    simp only [List.cons_append, containsSub, Bool.or_eq_true]
    exact Or.inr (by simpa using ih)

theorem findSub_isPfx {p l : List Char} {n : Nat} (h : findSub p l = some n) :
    isPfx p (l.drop n) = true := by
  induction l generalizing n with
  | nil =>
    simp only [findSub] at h
    split at h
    · rename_i hp
      cases h; simpa using hp
    · cases h
  | cons c cs ih =>
    simp only [findSub] at h
    split at h
    · rename_i hp
      cases h; simpa using hp
    · rcases Option.map_eq_some'.mp h with ⟨m, hm, rfl⟩
      simpa using ih hm

/-! ### Path lemmas -/

theorem breakLast_none {c : Char} {l : List Char}
    (h : breakLast c l = none) : c ∉ l := by
  induction l with
  | nil => simp
  | cons x xs ih =>
    simp only [breakLast] at h
    rcases hbl : breakLast c xs with _ | pr
    · rw [hbl] at h
      by_cases hxc : x = c
      · rw [if_pos hxc] at h; cases h
      · simp only [List.mem_cons, not_or]
        exact ⟨fun hh => hxc hh.symm, ih hbl⟩
    · rw [hbl] at h; cases h

theorem breakLast_some {c : Char} {l b a : List Char}
    (h : breakLast c l = some (b, a)) : l = b ++ c :: a ∧ c ∉ a := by
  induction l generalizing b a with
  | nil => cases h
  | cons x xs ih =>
    simp only [breakLast] at h
    rcases hbl : breakLast c xs with _ | ⟨b', a'⟩
    · rw [hbl] at h
      by_cases hxc : x = c
      · rw [if_pos hxc] at h
        simp only [Option.some.injEq, Prod.mk.injEq] at h
        obtain ⟨hb, ha⟩ := h
        subst hb; subst ha; subst hxc
        exact ⟨rfl, breakLast_none hbl⟩
      · rw [if_neg hxc] at h; cases h
    · rw [hbl] at h
      simp only [Option.some.injEq, Prod.mk.injEq] at h
      obtain ⟨hb, ha⟩ := h
      subst hb; subst ha
      rcases ih hbl with ⟨h1, h2⟩
      exact ⟨by rw [h1]; rfl, h2⟩

theorem breakLast_of_not_mem {c : Char} {l : List Char} (h : c ∉ l) :
    breakLast c l = none := by
  induction l with
  | nil => rfl
  | cons x xs ih =>
    simp only [List.mem_cons, not_or] at h
    have hx : ¬ x = c := fun hh => h.1 hh.symm
    simp [breakLast, ih h.2, hx]

theorem breakLast_append {c : Char} {a : List Char} (b : List Char) (h : c ∉ a) :
    breakLast c (b ++ c :: a) = some (b, a) := by
  induction b with
  | nil => simp [breakLast, breakLast_of_not_mem h]
  | cons x xs ih => simp [breakLast, ih]

theorem splitBase_append (b : List Char) :
    (splitBase b).1 ++ (splitBase b).2 = b := by
  unfold splitBase
  rcases hbl : breakLast '.' b with _ | ⟨n, e⟩
  · simp
  · rcases breakLast_some hbl with ⟨h1, _⟩
    by_cases hn : n = []
    · simp [hn]
    · simp only [if_neg hn]
      exact h1.symm

theorem joinPath_length (d f : List Char) :
    (joinPath d f).length = (if d = [] then 0 else d.length + 1) + f.length := by
  unfold joinPath
  split
  · simp
  · simp only [List.length_append, List.length_cons]
    omega

theorem parsePath_no_slash (p : List Char) :
    '/' ∉ (parsePath p).name ∧ '/' ∉ (parsePath p).ext := by
  have h : ∀ (b : List Char), '/' ∉ b → '/' ∉ (splitBase b).1 ∧ '/' ∉ (splitBase b).2 := by
    intro b hb
    have hsb := splitBase_append b
    constructor
    · intro hx
      exact hb (hsb ▸ List.mem_append.mpr (Or.inl hx))
    · intro hx
      exact hb (hsb ▸ List.mem_append.mpr (Or.inr hx))
  rcases hsp : breakLast '/' p with _ | ⟨d, base⟩
  · simp only [parsePath, hsp]
    exact h p (breakLast_none hsp)
  · simp only [parsePath, hsp]
    exact h base (breakLast_some hsp).2

theorem destFile_no_slash (p : List Char) (b : Bool) :
    '/' ∉ (parsePath p).name ++ (if b then rtlSuffixStr else []) ++
      ".min".data ++ (parsePath p).ext := by
  have hne := parsePath_no_slash p
  intro hx
  simp only [List.mem_append] at hx
  rcases hx with ((h | h) | h) | h
  · exact hne.1 h
  · cases b
    · simp at h
    · exact absurd h (by decide)
  · exact absurd h (by decide)
  · exact hne.2 h

theorem joinPath_nil (f : List Char) : joinPath [] f = f := rfl

theorem joinPath_cons (d f : List Char) (hd : d ≠ []) :
    joinPath d f = d ++ '/' :: f := by
  unfold joinPath
  rw [if_neg hd]

theorem parsePath_dir_join (d : List Char) {f : List Char} (hf : '/' ∉ f) :
    (parsePath (joinPath d f)).dir = d := by
  by_cases hd : d = []
  · subst hd
    rw [joinPath_nil]
    unfold parsePath
    rw [breakLast_of_not_mem hf]
  · rw [joinPath_cons d f hd]
    unfold parsePath
    rw [breakLast_append d hf]

theorem parsePath_getDestPath_dir (p : List Char) (b : Bool) :
    (parsePath (getDestPath p b)).dir = (parsePath p).dir := by
  unfold getDestPath
  exact parsePath_dir_join _ (destFile_no_slash p b)

theorem joinPath_inj (d : List Char) {f1 f2 : List Char}
    (h : joinPath d f1 = joinPath d f2) : f1 = f2 := by
  unfold joinPath at h
  by_cases hd : d = []
  · rwa [if_pos hd, if_pos hd] at h
  · rw [if_neg hd, if_neg hd] at h
    have h2 := List.append_cancel_left h
    injection h2

theorem getDestPath_ne (p : List Char) : getDestPath p false ≠ getDestPath p true := by
  intro h
  unfold getDestPath at h
  have h2 := joinPath_inj _ h
  have hlen := congrArg List.length h2
  have e1 : (if (false : Bool) then rtlSuffixStr else []) = ([] : List Char) := rfl
  have e2 : (if (true : Bool) then rtlSuffixStr else []) = rtlSuffixStr := rfl
  have e3 : rtlSuffixStr.length = 4 := rfl
  rw [e1, e2] at hlen
  simp only [List.length_append, e3, List.length_cons, List.length_nil] at hlen
  omega

/-- Claim C1: `getDestPath(P, false)` and `getDestPath(P, true)` are the
deterministic pure results `join(dir, name + ".min" + ext)` and
`join(dir, name + ".rtl.min" + ext)`; they are distinct paths, and both
live in `P`'s directory (their parsed `dir` equals `P`'s parsed `dir`). -/
theorem getDestPath_spec (p : List Char) :
    getDestPath p false =
      joinPath (parsePath p).dir ((parsePath p).name ++ ".min".data ++ (parsePath p).ext)
    ∧ getDestPath p true =
      joinPath (parsePath p).dir ((parsePath p).name ++ ".rtl.min".data ++ (parsePath p).ext)
    ∧ getDestPath p false ≠ getDestPath p true
    ∧ (parsePath (getDestPath p false)).dir = (parsePath p).dir
    ∧ (parsePath (getDestPath p true)).dir = (parsePath p).dir := by
  refine ⟨?_, ?_, getDestPath_ne p, parsePath_getDestPath_dir p false,
    parsePath_getDestPath_dir p true⟩
  · simp [getDestPath]
  · simp [getDestPath, rtlSuffixStr]

/-- Claim C2: `isSourceNewer` returns true exactly in the cases the spec
enumerates — the main artifact is missing, the RTL artifact is missing
(CSS with RTL generation on), the source mtime is strictly greater than
the relevant artifact mtime, or the stat on the source itself fails
(fail-open).  In particular a missing artifact forces `true` regardless of
the source mtime. -/
theorem isSourceNewer_iff_isStaleSpec (fs : FS) (p : List Char) :
    isSourceNewer fs p = true ↔ isStaleSpec fs p := by
  unfold isSourceNewer isStaleSpec
  rcases h1 : statFS fs p with _ | s
  · simp [h1]
  · rcases h2 : statFS fs (getDestPath p false) with _ | m
    · simp [h1, h2]
    · simp only [h1, h2]
      by_cases hc : extnameLower p = CSS_EXT ∧ RTL_enabled = true ∧
          RTL_generateSeparateFiles = true
      · rw [if_pos hc]
        rcases h3 : statFS fs (getDestPath p true) with _ | r
        · simp [h3, hc]
        · simp [h3, hc]
      · rw [if_neg hc]
        simp [hc]

/-! ### Import-strip lemmas -/

theorem stripPfx_append (pat r : List Char) : stripPfx pat (pat ++ r) = some r := by
  induction pat with
  | nil => rfl
  | cons a as ih => simp [stripPfx, ih]

theorem tryImportMatch_not_at {c : Char} (cs : List Char) (hc : ¬ c = '@') :
    tryImportMatch (c :: cs) = none := by
  unfold tryImportMatch
  have h : stripPfx "@import".data (c :: cs) = none := by
    show stripPfx ('@' :: "import".data) (c :: cs) = none
    unfold stripPfx
    rw [if_neg (fun h => hc h.symm)]
  rw [h]

theorem matchDots_spec (k : Nat) (rest : List Char) :
    matchDots (dotsRep k ++ 'a' :: rest) = 'a' :: rest := by
  induction k with
  | zero => rfl
  | succ k ih =>
    have h : matchDots (dotsRep (k + 1) ++ 'a' :: rest)
        = matchDots (dotsRep k ++ 'a' :: rest) := rfl
    rw [h, ih]

theorem tryImportMatch_stmt (k : Nat) (q : Char) (hq : q = squote ∨ q = dquote)
    (rest : List Char) :
    tryImportMatch (importStmt k q ++ rest) = some rest := by
  have hqw : isWs q = false := by rcases hq with rfl | rfl <;> decide
  have hstep1 : importStmt k q ++ rest
      = "@import".data ++ (' ' :: q :: (dotsRep k ++
          ("assets/css/definitions.css".data ++ q :: ';' :: rest))) := by
    simp [importStmt]
  have hmd : matchDots (dotsRep k ++ ("assets/css/definitions.css".data ++ q :: ';' :: rest))
      = "assets/css/definitions.css".data ++ q :: ';' :: rest :=
    matchDots_spec k ("ssets/css/definitions.css".data ++ q :: ';' :: rest)
  rw [hstep1]
  unfold tryImportMatch
  rw [stripPfx_append]
  simp only [List.cons_append, List.nil_append] at hmd
  simp [List.takeWhile_cons, hqw, hq, hmd, stripPfx, List.dropWhile_cons,
    show isWs ' ' = true from rfl, show isWs ';' = false from rfl]

theorem stripGo_match_some {l rest : List Char} {fuel : Nat}
    (h : tryImportMatch l = some rest) (hl : l ≠ []) :
    stripGo (fuel + 1) l = stripGo fuel rest := by
  cases l with
  | nil => exact absurd rfl hl
  | cons c cs =>
    show (match tryImportMatch (c :: cs) with
      | some r => stripGo fuel r
      | none => c :: stripGo fuel cs) = stripGo fuel rest
    rw [h]

theorem stripGo_cons_none {c : Char} {cs : List Char} {fuel : Nat}
    (h : tryImportMatch (c :: cs) = none) :
    stripGo (fuel + 1) (c :: cs) = c :: stripGo fuel cs := by
  show (match tryImportMatch (c :: cs) with
    | some r => stripGo fuel r
    | none => c :: stripGo fuel cs) = c :: stripGo fuel cs
  rw [h]

theorem stripGo_no_at {l : List Char} (h : '@' ∉ l) (fuel : Nat) :
    stripGo fuel l = l := by
  induction fuel generalizing l with
  | zero => rfl
  | succ f ih =>
    cases l with
    | nil => rfl
    | cons c cs =>
      simp only [List.mem_cons, not_or] at h
      rw [stripGo_cons_none (tryImportMatch_not_at cs (fun hh => h.1 hh.symm)),
        ih h.2]

theorem stripGo_append_no_at {pre : List Char} (h : '@' ∉ pre) (fuel : Nat)
    (l : List Char) :
    stripGo (fuel + pre.length) (pre ++ l) = pre ++ stripGo fuel l := by
  induction pre with
  | nil => simp
  | cons c cs ih =>
    simp only [List.mem_cons, not_or] at h
    have h1 : fuel + (c :: cs).length = (fuel + cs.length) + 1 := by
      simp [List.length_cons]
      omega
    rw [h1]
    show stripGo ((fuel + cs.length) + 1) (c :: (cs ++ l)) = (c :: cs) ++ stripGo fuel l
    rw [stripGo_cons_none (tryImportMatch_not_at (cs ++ l) (fun hh => h.1 hh.symm)),
      ih h.2]
    rfl

theorem stripDefImports_single (pre post : List Char) (k : Nat) (q : Char)
    (hq : q = squote ∨ q = dquote) (hpre : '@' ∉ pre) (hpost : '@' ∉ post) :
    stripDefImports (pre ++ importStmt k q ++ post) = pre ++ post := by
  unfold stripDefImports
  rw [List.append_assoc]
  rw [show (pre ++ (importStmt k q ++ post)).length
      = (importStmt k q ++ post).length + pre.length from by
    rw [List.length_append]; omega]
  rw [stripGo_append_no_at hpre]
  have hpos : 0 < (importStmt k q ++ post).length := by
    rw [List.length_append]
    have : importStmt k q ≠ [] := by simp [importStmt]
    have := List.length_pos.mpr this
    omega
  rw [show (importStmt k q ++ post).length
      = ((importStmt k q ++ post).length - 1) + 1 from by omega]
  rw [stripGo_match_some (tryImportMatch_stmt k q hq post) (by simp [importStmt])]
  rw [stripGo_no_at hpost]

/-- Claim C5 counterexample: the `./`-prefixed definitions import is not
matched by the stripping regex (which only accepts `../` repetitions), so
the text passed to the minifier still contains the import statement.  The
claim asserts removal for ANY relative prefix; `./` refutes it. -/
theorem stripDefImports_dotSlash_unstripped :
    stripDefImports dotSlashImport = dotSlashImport
    ∧ containsSub dotSlashImport (fullInputOf [] cwd0 dotSlashImport) = true := by
  constructor
  · decide
  · decide

/-- Claim C5 (amended): the stripping regex removes a definitions import
whose relative prefix is a possibly-empty run of `../` segments, with
either quote style.  For an input that is one such import surrounded by
at-rule-free text (and an at-rule-free definitions file), the text passed
to the minifier no longer contains the import statement.  Prefixes other
than `../` runs (for instance `./`) are not removed. -/
theorem stripDefImports_removes_import (fs : FS) (cwd pre post : List Char)
    (k : Nat) (q : Char) (hq : q = squote ∨ q = dquote)
    (hpre : '@' ∉ pre) (hpost : '@' ∉ post)
    (hdefs : '@' ∉ readDefinitions fs cwd) :
    stripDefImports (pre ++ importStmt k q ++ post) = pre ++ post
    ∧ containsSub (importStmt k q)
        (fullInputOf fs cwd (pre ++ importStmt k q ++ post)) = false := by
  have h1 := stripDefImports_single pre post k q hq hpre hpost
  refine ⟨h1, ?_⟩
  unfold fullInputOf
  rw [h1]
  cases hX : containsSub (importStmt k q) (readDefinitions fs cwd ++ (pre ++ post)) with
  | false => rfl
  | true =>
    have hat : '@' ∈ importStmt k q := by simp [importStmt]
    have hmem := containsSub_mem hX _ hat
    simp only [List.mem_append] at hmem
    rcases hmem with h | h | h
    · exact absurd h hdefs
    · exact absurd h hpre
    · exact absurd h hpost

/-! ### Definitions-removal post-processing (C4) -/

/-- Claim C4 (amended): whenever the post-processing emits a warning the
minified code is returned unchanged (the duplicate is tolerated, never a
corrupted cut); the output is always a suffix of the minified code; and
whenever the output differs from the minified code the cut succeeded
silently and the output starts with the input's first-rule marker text.
The original claim fails because removal can also fail silently: when the
output does not start with the trimmed definitions, or the first
definitions line cannot be located, no warning is emitted (see the
counterexample). -/
theorem postprocessDefs_spec (defs cleaned final : List Char) :
    ((postprocessDefs defs cleaned final).2 ≠ [] →
      (postprocessDefs defs cleaned final).1 = final)
    ∧ (∃ n, (postprocessDefs defs cleaned final).1 = final.drop n)
    ∧ ((postprocessDefs defs cleaned final).1 ≠ final →
        (postprocessDefs defs cleaned final).2 = [] ∧
        ∃ m, firstRuleScan cleaned = some m ∧
          isPfx m (postprocessDefs defs cleaned final).1 = true) := by
  unfold postprocessDefs
  split
  · split
    · exact ⟨fun _ => rfl, ⟨0, by simp⟩, fun hne => absurd rfl hne⟩
    · split
      · split
        · rename_i d2 m hscan d3 idx hfrom
          refine ⟨fun hw => absurd rfl hw, ⟨idx, rfl⟩, fun _ => ⟨rfl, m, hscan, ?_⟩⟩
          unfold findFrom at hfrom
          rcases Option.map_eq_some'.mp hfrom with ⟨j, hj, rfl⟩
          have hp := findSub_isPfx hj
          rwa [List.drop_drop, Nat.add_comm] at hp
        · exact ⟨fun _ => rfl, ⟨0, by simp⟩, fun hne => absurd rfl hne⟩
      · exact ⟨fun _ => rfl, ⟨0, by simp⟩, fun hne => absurd rfl hne⟩
  · exact ⟨fun _ => rfl, ⟨0, by simp⟩, fun hne => absurd rfl hne⟩

/-- Witness for the amended C4 claim at a concrete cut-case input. -/
theorem postprocessDefs_spec_witness :
    (postprocessDefs "A\n".data ".z".data "A.z".data).2 = [] ∧
    ∃ m, firstRuleScan ".z".data = some m ∧
      isPfx m (postprocessDefs "A\n".data ".z".data "A.z".data).1 = true :=
  (postprocessDefs_spec "A\n".data ".z".data "A.z".data).2.2 (by decide)

/-- Claim C4 counterexample: with a definitions file that begins with
whitespace, the first definitions line (`"  z"`) does not occur in the
minified output, so `indexOf` fails and the code silently keeps the
duplicate: the result still begins with the trimmed definitions content,
yet the warning list is empty — refuting "in every case where the removal
fails, a warning is logged". -/
theorem minifyCss_silent_duplicate :
    minifyCss fsC4 cwd0 oracleC4 ".a".data "style.css".data false
      = Except.ok (⟨"z\nQ.a".data, none⟩, [])
    ∧ isPfx (trimStr (readDefinitions fsC4 cwd0)) "z\nQ.a".data = true
    ∧ readDefinitions fsC4 cwd0 ≠ [] := by
  refine ⟨?_, by decide, by decide⟩
  rfl

/-! ### Colon-anchored replacement lemmas (C6) -/

theorem isPfx_head_ne {q : List Char} (hq0 : q ≠ []) (hq : ':' ∉ q) (X : List Char) :
    isPfx (q ++ [':']) (':' :: X) = false := by
  cases q with
  | nil => exact absurd rfl hq0
  | cons a as =>
    have ha : ¬ a = ':' := fun h => hq (h ▸ List.mem_cons_self a as)
    show isPfx (a :: (as ++ [':'])) (':' :: X) = false
    unfold isPfx
    rw [if_neg ha]

theorem appendColon_inj : ∀ (s q X r : List Char),
    s ++ ':' :: X = q ++ ':' :: r → ':' ∉ s → ':' ∉ q → s = q ∧ X = r := by
  intro s
  induction s with
  | nil =>
    intro q X r h hs hq
    cases q with
    | nil => simpa using h
    | cons b bs =>
      simp only [List.nil_append, List.cons_append] at h
      injection h with h1 h2
      rw [← h1] at hq
      exact absurd (List.mem_cons_self _ _) hq
  | cons a as ih =>
    intro q X r h hs hq
    cases q with
    | nil =>
      simp only [List.cons_append, List.nil_append] at h
      injection h with h1 h2
      rw [h1] at hs
      exact absurd (List.mem_cons_self _ _) hs
    | cons b bs =>
      simp only [List.cons_append] at h
      injection h with h1 h2
      subst h1
      have hs' : ':' ∉ as := fun hx => hs (List.mem_cons_of_mem _ hx)
      have hq' : ':' ∉ bs := fun hx => hq (List.mem_cons_of_mem _ hx)
      obtain ⟨e1, e2⟩ := ih bs X r h2 hs' hq'
      exact ⟨by rw [e1], e2⟩

theorem isPfx_colon_iff {q s : List Char} (X : List Char)
    (hq : ':' ∉ q) (hs : ':' ∉ s) :
    isPfx (q ++ [':']) (s ++ ':' :: X) = true ↔ q = s := by
  constructor
  · intro h
    rcases (isPfx_iff _ _).mp h with ⟨r, hr⟩
    rw [List.append_assoc] at hr
    exact ((appendColon_inj s q X r (by simpa using hr) hs hq).1).symm
  · rintro rfl
    have h2 : q ++ ':' :: X = (q ++ [':']) ++ X := by simp
    rw [h2]
    exact isPfx_append_self _ _

theorem isSfx_cons_of {q l : List Char} (c : Char) (h : isSfx q l = true) :
    isSfx q (c :: l) = true := by
  rcases (isSfx_iff _ _).mp h with ⟨t, rfl⟩
  exact (isSfx_iff _ _).mpr ⟨c :: t, rfl⟩

theorem substSeg_match (q r₀ t : List Char) : substSeg q r₀ (t ++ q) = t ++ r₀ := by
  unfold substSeg
  rw [if_pos (isSfx_append_self t q)]
  congr 1
  rw [show (t ++ q).length - q.length = t.length from by
    rw [List.length_append]; omega]
  exact List.take_left t q

theorem substSeg_skip {q s : List Char} (r₀ : List Char) (h : isSfx q s = false) :
    substSeg q r₀ s = s := by
  unfold substSeg
  rw [h]
  simp

theorem replaceAllGo_cons_skip {pat repl : List Char} {c : Char} {cs : List Char}
    {fuel : Nat} (h : ¬ (isPfx pat (c :: cs) = true ∧ pat ≠ [])) :
    replaceAllGo pat repl (fuel + 1) (c :: cs) = c :: replaceAllGo pat repl fuel cs := by
  show (if isPfx pat (c :: cs) ∧ pat ≠ [] then
    repl ++ replaceAllGo pat repl fuel ((c :: cs).drop pat.length)
    else c :: replaceAllGo pat repl fuel cs) = c :: replaceAllGo pat repl fuel cs
  rw [if_neg h]

theorem replaceAllGo_cons_match {pat repl : List Char} {c : Char} {cs : List Char}
    {fuel : Nat} (h1 : isPfx pat (c :: cs) = true) (h2 : pat ≠ []) :
    replaceAllGo pat repl (fuel + 1) (c :: cs)
      = repl ++ replaceAllGo pat repl fuel ((c :: cs).drop pat.length) := by
  show (if isPfx pat (c :: cs) ∧ pat ≠ [] then
    repl ++ replaceAllGo pat repl fuel ((c :: cs).drop pat.length)
    else c :: replaceAllGo pat repl fuel cs)
    = repl ++ replaceAllGo pat repl fuel ((c :: cs).drop pat.length)
  rw [if_pos ⟨h1, h2⟩]

theorem replaceAllGo_no_colon {q repl : List Char} (hq : ':' ∉ q) :
    ∀ (fuel : Nat) (l : List Char), ':' ∉ l →
    replaceAllGo (q ++ [':']) repl fuel l = l := by
  intro fuel
  induction fuel with
  | zero => intro l _; rfl
  | succ f ih =>
    intro l hl
    cases l with
    | nil => rfl
    | cons c cs =>
      have hnp : ¬ (isPfx (q ++ [':']) (c :: cs) = true ∧ (q ++ [':']) ≠ []) := by
        rintro ⟨hp, _⟩
        exact hl (isPfx_mem hp ':' (List.mem_append.mpr (Or.inr (List.mem_singleton_self _))))
      rw [replaceAllGo_cons_skip hnp, ih cs (fun hx => hl (List.mem_cons_of_mem _ hx))]

theorem replaceAllGo_segment_skip {q repl : List Char} (hq : ':' ∉ q) (hq0 : q ≠ []) :
    ∀ (s : List Char) (X : List Char) (fuel : Nat), ':' ∉ s → isSfx q s = false →
    replaceAllGo (q ++ [':']) repl fuel (s ++ ':' :: X)
      = s ++ ':' :: replaceAllGo (q ++ [':']) repl (fuel - (s.length + 1)) X := by
  intro s
  induction s with
  | nil =>
    intro X fuel _ _
    cases fuel with
    | zero => rfl
    | succ f =>
      have hnp : ¬ (isPfx (q ++ [':']) (':' :: X) = true ∧ (q ++ [':']) ≠ []) := by
        rintro ⟨hp, _⟩
        rw [isPfx_head_ne hq0 hq X] at hp
        cases hp
      rw [show ([] : List Char) ++ ':' :: X = ':' :: X from rfl,
        replaceAllGo_cons_skip hnp]
      simp
  | cons c cs ih =>
    intro X fuel hcol hsfx
    cases fuel with
    | zero =>
      show (c :: cs) ++ ':' :: X
        = (c :: cs) ++ ':' :: replaceAllGo (q ++ [':']) repl (0 - ((c :: cs).length + 1)) X
      rw [Nat.zero_sub]
      rfl
    | succ f =>
      have hnc : ¬ q = c :: cs := by
        intro hqe
        rw [hqe] at hsfx
        rw [show isSfx (c :: cs) (c :: cs) = true from
          by simpa using isSfx_append_self [] (c :: cs)] at hsfx
        cases hsfx
      have hnp : ¬ (isPfx (q ++ [':']) (c :: (cs ++ ':' :: X)) = true ∧
          (q ++ [':']) ≠ []) := by
        rintro ⟨hp, _⟩
        have hp2 : isPfx (q ++ [':']) ((c :: cs) ++ ':' :: X) = true := hp
        exact hnc ((isPfx_colon_iff X hq hcol).mp hp2)
      have hcs : ':' ∉ cs := fun hx => hcol (List.mem_cons_of_mem _ hx)
      have hsfx' : isSfx q cs = false := by
        cases hx : isSfx q cs
        · rfl
        · rw [isSfx_cons_of c hx] at hsfx
          cases hsfx
      show replaceAllGo (q ++ [':']) repl (f + 1) (c :: (cs ++ ':' :: X))
        = (c :: cs) ++ ':' :: replaceAllGo (q ++ [':']) repl
            ((f + 1) - ((c :: cs).length + 1)) X
      rw [replaceAllGo_cons_skip hnp, ih X f hcs hsfx']
      rw [show f - (cs.length + 1) = (f + 1) - ((c :: cs).length + 1) from by
        simp only [List.length_cons]
        omega]
      rfl

theorem replaceAllGo_segment_match {q repl : List Char} (hq : ':' ∉ q) :
    ∀ (t : List Char) (X : List Char) (fuel : Nat), ':' ∉ t → t.length + 1 ≤ fuel →
    replaceAllGo (q ++ [':']) repl fuel ((t ++ q) ++ ':' :: X)
      = t ++ repl ++ replaceAllGo (q ++ [':']) repl (fuel - (t.length + 1)) X := by
  intro t
  induction t with
  | nil =>
    intro X fuel _ hfuel
    cases fuel with
    | zero => omega
    | succ f =>
      cases q with
      | nil =>
        show replaceAllGo ([] ++ [':']) repl (f + 1) (':' :: X)
          = [] ++ repl ++ replaceAllGo ([] ++ [':']) repl ((f + 1) - (0 + 1)) X
        have hp : isPfx (([] : List Char) ++ [':']) (':' :: X) = true := by
          simp [isPfx]
        rw [replaceAllGo_cons_match hp (by simp)]
        simp
      | cons a as =>
        show replaceAllGo ((a :: as) ++ [':']) repl (f + 1) (a :: (as ++ ':' :: X))
          = [] ++ repl ++ replaceAllGo ((a :: as) ++ [':']) repl ((f + 1) - (0 + 1)) X
        have hp : isPfx ((a :: as) ++ [':']) (a :: (as ++ ':' :: X)) = true := by
          rw [show a :: (as ++ ':' :: X) = ((a :: as) ++ [':']) ++ X from by simp]
          exact isPfx_append_self _ _
        rw [replaceAllGo_cons_match hp (by simp)]
        rw [show (a :: (as ++ ':' :: X)).drop (((a :: as) ++ [':']).length) = X from by
          rw [show a :: (as ++ ':' :: X) = ((a :: as) ++ [':']) ++ X from by simp]
          exact List.drop_left _ _]
        simp
  | cons c t' ih =>
    intro X fuel hcol hfuel
    cases fuel with
    | zero => simp at hfuel
    | succ f =>
      have hct : ':' ∉ (c :: t') ++ q := by
        intro hx
        rcases List.mem_append.mp hx with hx | hx
        · exact hcol hx
        · exact hq hx
      have hnc : ¬ q = (c :: t') ++ q := by
        intro hqe
        have hl := congrArg List.length hqe
        simp [List.length_append] at hl
        omega
      have hnp : ¬ (isPfx (q ++ [':']) (c :: ((t' ++ q) ++ ':' :: X)) = true ∧
          (q ++ [':']) ≠ []) := by
        rintro ⟨hp, _⟩
        have hp2 : isPfx (q ++ [':']) (((c :: t') ++ q) ++ ':' :: X) = true := hp
        exact hnc ((isPfx_colon_iff X hq hct).mp hp2)
      have hcs : ':' ∉ t' := fun hx => hcol (List.mem_cons_of_mem _ hx)
      show replaceAllGo (q ++ [':']) repl (f + 1) (c :: ((t' ++ q) ++ ':' :: X))
        = (c :: t') ++ repl ++ replaceAllGo (q ++ [':']) repl
            ((f + 1) - ((c :: t').length + 1)) X
      rw [replaceAllGo_cons_skip hnp, ih X f hcs (by simp at hfuel; omega)]
      rw [show f - (t'.length + 1) = (f + 1) - ((c :: t').length + 1) from by
        simp only [List.length_cons]
        omega]
      rfl

theorem replaceAll_threeSeg (q r₀ s1 s2 s3 : List Char)
    (hq : ':' ∉ q) (hq0 : q ≠ []) (hs1c : ':' ∉ s1) (hs2c : ':' ∉ s2)
    (hs3c : ':' ∉ s3) :
    replaceAll (q ++ [':']) (r₀ ++ [':']) (s1 ++ ':' :: (s2 ++ ':' :: s3))
      = substSeg q r₀ s1 ++ ':' :: (substSeg q r₀ s2 ++ ':' :: s3) := by
  unfold replaceAll
  by_cases hs1 : isSfx q s1 = true
  · obtain ⟨t, rfl⟩ := (isSfx_iff q s1).mp hs1
    have ht : ':' ∉ t := fun hx => hs1c (List.mem_append.mpr (Or.inl hx))
    rw [replaceAllGo_segment_match hq t (s2 ++ ':' :: s3) _ ht
      (by simp [List.length_append]; omega)]
    rw [substSeg_match]
    by_cases hs2 : isSfx q s2 = true
    · obtain ⟨t2, rfl⟩ := (isSfx_iff q s2).mp hs2
      have ht2 : ':' ∉ t2 := fun hx => hs2c (List.mem_append.mpr (Or.inl hx))
      rw [replaceAllGo_segment_match hq t2 s3 _ ht2
        (by simp [List.length_append]; omega)]
      rw [substSeg_match, replaceAllGo_no_colon hq _ _ hs3c]
      simp
    · have hs2' : isSfx q s2 = false := by
        cases hx : isSfx q s2
        · rfl
        · exact absurd hx hs2
      rw [replaceAllGo_segment_skip hq hq0 s2 s3 _ hs2c hs2',
        substSeg_skip _ hs2', replaceAllGo_no_colon hq _ _ hs3c]
      simp
  · have hs1' : isSfx q s1 = false := by
      cases hx : isSfx q s1
      · rfl
      · exact absurd hx hs1
    rw [replaceAllGo_segment_skip hq hq0 s1 (s2 ++ ':' :: s3) _ hs1c hs1',
      substSeg_skip _ hs1']
    by_cases hs2 : isSfx q s2 = true
    · obtain ⟨t2, rfl⟩ := (isSfx_iff q s2).mp hs2
      have ht2 : ':' ∉ t2 := fun hx => hs2c (List.mem_append.mpr (Or.inl hx))
      rw [replaceAllGo_segment_match hq t2 s3 _ ht2
        (by simp [List.length_append]; omega)]
      rw [substSeg_match, replaceAllGo_no_colon hq _ _ hs3c]
      simp
    · have hs2' : isSfx q s2 = false := by
        cases hx : isSfx q s2
        · rfl
        · exact absurd hx hs2
      rw [replaceAllGo_segment_skip hq hq0 s2 s3 _ hs2c hs2',
        substSeg_skip _ hs2', replaceAllGo_no_colon hq _ _ hs3c]

theorem taMatch_none {head tailPat l : List Char} (h : isPfx head l = false) :
    taMatch head tailPat l = none := by
  unfold taMatch
  rw [h]
  simp

theorem taGo_cons_skip {head tailPat repl : List Char} {c : Char} {cs : List Char}
    {fuel : Nat} (h : taMatch head tailPat (c :: cs) = none) :
    taGo head tailPat repl (fuel + 1) (c :: cs) = c :: taGo head tailPat repl fuel cs := by
  show (match taMatch head tailPat (c :: cs) with
    | some rest => repl ++ taGo head tailPat repl fuel rest
    | none => c :: taGo head tailPat repl fuel cs) = c :: taGo head tailPat repl fuel cs
  rw [h]

theorem taGo_no_colon {q tailPat repl : List Char} (hq : ':' ∉ q) :
    ∀ (fuel : Nat) (l : List Char), ':' ∉ l →
    taGo (q ++ [':']) tailPat repl fuel l = l := by
  intro fuel
  induction fuel with
  | zero => intro l _; rfl
  | succ f ih =>
    intro l hl
    cases l with
    | nil => rfl
    | cons c cs =>
      have hpf : isPfx (q ++ [':']) (c :: cs) = false := by
        cases hx : isPfx (q ++ [':']) (c :: cs)
        · rfl
        · exact absurd (isPfx_mem hx ':' (by simp)) hl
      rw [taGo_cons_skip (taMatch_none hpf),
        ih cs (fun hx => hl (List.mem_cons_of_mem _ hx))]

theorem taGo_segment_skip {q tailPat repl : List Char} (hq : ':' ∉ q) (hq0 : q ≠ []) :
    ∀ (s X : List Char) (fuel : Nat), ':' ∉ s → isSfx q s = false →
    taGo (q ++ [':']) tailPat repl fuel (s ++ ':' :: X)
      = s ++ ':' :: taGo (q ++ [':']) tailPat repl (fuel - (s.length + 1)) X := by
  intro s
  induction s with
  | nil =>
    intro X fuel _ _
    cases fuel with
    | zero => rfl
    | succ f =>
      rw [show ([] : List Char) ++ ':' :: X = ':' :: X from rfl,
        taGo_cons_skip (taMatch_none (isPfx_head_ne hq0 hq X))]
      simp
  | cons c cs ih =>
    intro X fuel hcol hsfx
    cases fuel with
    | zero =>
      show (c :: cs) ++ ':' :: X
        = (c :: cs) ++ ':' :: taGo (q ++ [':']) tailPat repl (0 - ((c :: cs).length + 1)) X
      rw [Nat.zero_sub]
      rfl
    | succ f =>
      have hnc : ¬ q = c :: cs := by
        intro hqe
        rw [hqe] at hsfx
        rw [show isSfx (c :: cs) (c :: cs) = true from
          by simpa using isSfx_append_self [] (c :: cs)] at hsfx
        cases hsfx
      have hpf : isPfx (q ++ [':']) (c :: (cs ++ ':' :: X)) = false := by
        cases hx : isPfx (q ++ [':']) (c :: (cs ++ ':' :: X))
        · rfl
        · have hx2 : isPfx (q ++ [':']) ((c :: cs) ++ ':' :: X) = true := hx
          exact absurd ((isPfx_colon_iff X hq hcol).mp hx2) hnc
      have hcs : ':' ∉ cs := fun hx => hcol (List.mem_cons_of_mem _ hx)
      have hsfx' : isSfx q cs = false := by
        cases hx : isSfx q cs
        · rfl
        · rw [isSfx_cons_of c hx] at hsfx
          cases hsfx
      show taGo (q ++ [':']) tailPat repl (f + 1) (c :: (cs ++ ':' :: X))
        = (c :: cs) ++ ':' :: taGo (q ++ [':']) tailPat repl
            ((f + 1) - ((c :: cs).length + 1)) X
      rw [taGo_cons_skip (taMatch_none hpf), ih X f hcs hsfx']
      rw [show f - (cs.length + 1) = (f + 1) - ((c :: cs).length + 1) from by
        simp only [List.length_cons]
        omega]
      rfl

theorem taReplace_threeSeg_skip (q tailPat repl s1 s2 s3 : List Char)
    (hq : ':' ∉ q) (hq0 : q ≠ [])
    (hs1c : ':' ∉ s1) (hs2c : ':' ∉ s2) (hs3c : ':' ∉ s3)
    (hs1 : isSfx q s1 = false) (hs2 : isSfx q s2 = false) :
    taReplace (q ++ [':']) tailPat repl (s1 ++ ':' :: (s2 ++ ':' :: s3))
      = s1 ++ ':' :: (s2 ++ ':' :: s3) := by
  unfold taReplace
  rw [taGo_segment_skip hq hq0 s1 (s2 ++ ':' :: s3) _ hs1c hs1,
    taGo_segment_skip hq hq0 s2 s3 _ hs2c hs2,
    taGo_no_colon hq _ _ hs3c]

theorem isSfx_fixed_false {q f : List Char} (X : List Char) (hlen : q.length ≤ f.length)
    (hqf : isSfx q f = false) : isSfx q (X ++ f) = false := by
  rw [isSfx_le q X f hlen]
  exact hqf

theorem isSfx_fixed_false' {q f : List Char} (X : List Char) (hlen : f.length ≤ q.length)
    (hfq : isSfx f q = false) : isSfx q (X ++ f) = false := by
  cases h : isSfx q (X ++ f)
  · rfl
  · rw [isSfx_gt h hlen] at hfq
    cases hfq

theorem not_colon_append {X f : List Char} (hX : ':' ∉ X) (hf : ':' ∉ f) :
    ':' ∉ X ++ f := by
  intro hx
  rcases List.mem_append.mp hx with h | h
  · exact hX h
  · exact hf h

/-- Claim C6: on an input containing `margin-left:` and a standalone
`left:` in separate declarations (the surrounding text `A`, `B`, `C` is
colon-free, and the standalone `left:` is not actually the tail of a
`margin-left:`/`padding-left:`/`border-left:` occurrence), the ordered
substitutions of `generateRtlCss` rewrite the former to
`margin-inline-start:` and the latter to `inset-inline-start:`, each
exactly once and nothing else — no occurrence is substituted twice, as the
exact output equality shows — and the rewritten text contains both logical
properties. -/
theorem rtlSubstitute_spec (A B C : List Char)
    (hA : ':' ∉ A) (hB : ':' ∉ B) (hC : ':' ∉ C)
    (hB1 : isSfx "margin-left".data (B ++ "left".data) = false)
    (hB2 : isSfx "padding-left".data (B ++ "left".data) = false)
    (hB3 : isSfx "border-left".data (B ++ "left".data) = false) :
    rtlSubstitute (A ++ "margin-left:".data ++ B ++ "left:".data ++ C)
      = A ++ "margin-inline-start:".data ++ B ++ "inset-inline-start:".data ++ C
    ∧ containsSub "margin-inline-start:".data
        (rtlSubstitute (A ++ "margin-left:".data ++ B ++ "left:".data ++ C)) = true
    ∧ containsSub "inset-inline-start:".data
        (rtlSubstitute (A ++ "margin-left:".data ++ B ++ "left:".data ++ C)) = true := by
  have c1a : ':' ∉ A ++ "margin-left".data := not_colon_append hA (by decide)
  have c1b : ':' ∉ A ++ "margin-inline-start".data := not_colon_append hA (by decide)
  have c2a : ':' ∉ B ++ "left".data := not_colon_append hB (by decide)
  have c2b : ':' ∉ B ++ "inset-inline-start".data := not_colon_append hB (by decide)
  have hstep1 : replaceAll "margin-left:".data "margin-inline-start:".data
      (A ++ "margin-left:".data ++ B ++ "left:".data ++ C)
      = (A ++ "margin-inline-start".data) ++ ':' :: ((B ++ "left".data) ++ ':' :: C) := by
    rw [show A ++ "margin-left:".data ++ B ++ "left:".data ++ C
        = (A ++ "margin-left".data) ++ ':' :: ((B ++ "left".data) ++ ':' :: C) from by simp,
      show ("margin-left:".data : List Char) = "margin-left".data ++ [':'] from by decide,
      show ("margin-inline-start:".data : List Char)
        = "margin-inline-start".data ++ [':'] from by decide,
      replaceAll_threeSeg _ _ _ _ _ (by decide) (by decide) c1a c2a hC,
      substSeg_match "margin-left".data "margin-inline-start".data A,
      substSeg_skip _ hB1]
  have hstep2 : replaceAll "margin-right:".data "margin-inline-end:".data
      ((A ++ "margin-inline-start".data) ++ ':' :: ((B ++ "left".data) ++ ':' :: C))
      = (A ++ "margin-inline-start".data) ++ ':' :: ((B ++ "left".data) ++ ':' :: C) := by
    rw [show ("margin-right:".data : List Char) = "margin-right".data ++ [':'] from by decide,
      show ("margin-inline-end:".data : List Char)
        = "margin-inline-end".data ++ [':'] from by decide,
      replaceAll_threeSeg _ _ _ _ _ (by decide) (by decide) c1b c2a hC,
      substSeg_skip _ (isSfx_fixed_false A (by decide) (by decide)),
      substSeg_skip _ (isSfx_fixed_false' B (by decide) (by decide))]
  have hstep3 : replaceAll "padding-left:".data "padding-inline-start:".data
      ((A ++ "margin-inline-start".data) ++ ':' :: ((B ++ "left".data) ++ ':' :: C))
      = (A ++ "margin-inline-start".data) ++ ':' :: ((B ++ "left".data) ++ ':' :: C) := by
    rw [show ("padding-left:".data : List Char) = "padding-left".data ++ [':'] from by decide,
      show ("padding-inline-start:".data : List Char)
        = "padding-inline-start".data ++ [':'] from by decide,
      replaceAll_threeSeg _ _ _ _ _ (by decide) (by decide) c1b c2a hC,
      substSeg_skip _ (isSfx_fixed_false A (by decide) (by decide)),
      substSeg_skip _ hB2]
  have hstep4 : replaceAll "padding-right:".data "padding-inline-end:".data
      ((A ++ "margin-inline-start".data) ++ ':' :: ((B ++ "left".data) ++ ':' :: C))
      = (A ++ "margin-inline-start".data) ++ ':' :: ((B ++ "left".data) ++ ':' :: C) := by
    rw [show ("padding-right:".data : List Char) = "padding-right".data ++ [':'] from by decide,
      show ("padding-inline-end:".data : List Char)
        = "padding-inline-end".data ++ [':'] from by decide,
      replaceAll_threeSeg _ _ _ _ _ (by decide) (by decide) c1b c2a hC,
      substSeg_skip _ (isSfx_fixed_false A (by decide) (by decide)),
      substSeg_skip _ (isSfx_fixed_false' B (by decide) (by decide))]
  have hstep5 : replaceAll "border-left:".data "border-inline-start:".data
      ((A ++ "margin-inline-start".data) ++ ':' :: ((B ++ "left".data) ++ ':' :: C))
      = (A ++ "margin-inline-start".data) ++ ':' :: ((B ++ "left".data) ++ ':' :: C) := by
    rw [show ("border-left:".data : List Char) = "border-left".data ++ [':'] from by decide,
      show ("border-inline-start:".data : List Char)
        = "border-inline-start".data ++ [':'] from by decide,
      replaceAll_threeSeg _ _ _ _ _ (by decide) (by decide) c1b c2a hC,
      substSeg_skip _ (isSfx_fixed_false A (by decide) (by decide)),
      substSeg_skip _ hB3]
  have hstep6 : replaceAll "border-right:".data "border-inline-end:".data
      ((A ++ "margin-inline-start".data) ++ ':' :: ((B ++ "left".data) ++ ':' :: C))
      = (A ++ "margin-inline-start".data) ++ ':' :: ((B ++ "left".data) ++ ':' :: C) := by
    rw [show ("border-right:".data : List Char) = "border-right".data ++ [':'] from by decide,
      show ("border-inline-end:".data : List Char)
        = "border-inline-end".data ++ [':'] from by decide,
      replaceAll_threeSeg _ _ _ _ _ (by decide) (by decide) c1b c2a hC,
      substSeg_skip _ (isSfx_fixed_false A (by decide) (by decide)),
      substSeg_skip _ (isSfx_fixed_false' B (by decide) (by decide))]
  have hstep7 : replaceAll "left:".data "inset-inline-start:".data
      ((A ++ "margin-inline-start".data) ++ ':' :: ((B ++ "left".data) ++ ':' :: C))
      = (A ++ "margin-inline-start".data) ++ ':' ::
          ((B ++ "inset-inline-start".data) ++ ':' :: C) := by
    rw [show ("left:".data : List Char) = "left".data ++ [':'] from by decide,
      show ("inset-inline-start:".data : List Char)
        = "inset-inline-start".data ++ [':'] from by decide,
      replaceAll_threeSeg _ _ _ _ _ (by decide) (by decide) c1b c2a hC,
      substSeg_skip _ (isSfx_fixed_false A (by decide) (by decide)),
      substSeg_match "left".data "inset-inline-start".data B]
  have hstep8 : replaceAll "right:".data "inset-inline-end:".data
      ((A ++ "margin-inline-start".data) ++ ':' ::
        ((B ++ "inset-inline-start".data) ++ ':' :: C))
      = (A ++ "margin-inline-start".data) ++ ':' ::
          ((B ++ "inset-inline-start".data) ++ ':' :: C) := by
    rw [show ("right:".data : List Char) = "right".data ++ [':'] from by decide,
      show ("inset-inline-end:".data : List Char)
        = "inset-inline-end".data ++ [':'] from by decide,
      replaceAll_threeSeg _ _ _ _ _ (by decide) (by decide) c1b c2b hC,
      substSeg_skip _ (isSfx_fixed_false A (by decide) (by decide)),
      substSeg_skip _ (isSfx_fixed_false B (by decide) (by decide))]
  have hstep9 : taReplace "text-align:".data "left".data "text-align: start".data
      ((A ++ "margin-inline-start".data) ++ ':' ::
        ((B ++ "inset-inline-start".data) ++ ':' :: C))
      = (A ++ "margin-inline-start".data) ++ ':' ::
          ((B ++ "inset-inline-start".data) ++ ':' :: C) := by
    rw [show ("text-align:".data : List Char) = "text-align".data ++ [':'] from by decide]
    exact taReplace_threeSeg_skip _ _ _ _ _ _ (by decide) (by decide) c1b c2b hC
      (isSfx_fixed_false A (by decide) (by decide))
      (isSfx_fixed_false B (by decide) (by decide))
  have hstep10 : taReplace "text-align:".data "right".data "text-align: end".data
      ((A ++ "margin-inline-start".data) ++ ':' ::
        ((B ++ "inset-inline-start".data) ++ ':' :: C))
      = (A ++ "margin-inline-start".data) ++ ':' ::
          ((B ++ "inset-inline-start".data) ++ ':' :: C) := by
    rw [show ("text-align:".data : List Char) = "text-align".data ++ [':'] from by decide]
    exact taReplace_threeSeg_skip _ _ _ _ _ _ (by decide) (by decide) c1b c2b hC
      (isSfx_fixed_false A (by decide) (by decide))
      (isSfx_fixed_false B (by decide) (by decide))
  have hmain : rtlSubstitute (A ++ "margin-left:".data ++ B ++ "left:".data ++ C)
      = A ++ "margin-inline-start:".data ++ B ++ "inset-inline-start:".data ++ C := by
    unfold rtlSubstitute
    rw [hstep1, hstep2, hstep3, hstep4, hstep5, hstep6, hstep7, hstep8, hstep9, hstep10]
    simp
  refine ⟨hmain, ?_, ?_⟩
  · rw [hmain,
      show A ++ "margin-inline-start:".data ++ B ++ "inset-inline-start:".data ++ C
        = A ++ "margin-inline-start:".data ++
            (B ++ "inset-inline-start:".data ++ C) from by simp]
    exact containsSub_append_self A "margin-inline-start:".data
      (B ++ "inset-inline-start:".data ++ C)
  · rw [hmain]
    exact containsSub_append_self (A ++ "margin-inline-start:".data ++ B)
      "inset-inline-start:".data C

/-! ### Filesystem and in-flight set lemmas -/

theorem statFS_fsWrite_self (fs : FS) (p content : List Char) (now : Nat) :
    statFS (fsWrite fs p content now) p = some ⟨content, some now⟩ := by
  induction fs with
  | nil => simp [fsWrite, statFS]
  | cons e rest ih =>
    obtain ⟨q, g⟩ := e
    unfold fsWrite
    by_cases hqp : q = p
    · rw [if_pos hqp]
      simp [statFS]
    · rw [if_neg hqp]
      unfold statFS
      rw [if_neg hqp]
      exact ih

theorem statFS_fsWrite_other {p p2 : List Char} (fs : FS) (content : List Char)
    (now : Nat) (h : ¬ p2 = p) :
    statFS (fsWrite fs p content now) p2 = statFS fs p2 := by
  induction fs with
  | nil =>
    simp only [fsWrite, statFS]
    rw [if_neg (fun hh => h hh.symm)]
  | cons e rest ih =>
    obtain ⟨q, g⟩ := e
    unfold fsWrite
    by_cases hqp : q = p
    · rw [if_pos hqp]
      unfold statFS
      rw [if_neg (fun hh => h hh.symm), if_neg (fun hh => h (hqp ▸ hh).symm)]
    · rw [if_neg hqp]
      unfold statFS
      by_cases hq2 : q = p2
      · rw [if_pos hq2, if_pos hq2]
      · rw [if_neg hq2, if_neg hq2]
        exact ih

theorem setDelete_setAdd {fp : List Char} {P : List (List Char)} (h : fp ∉ P) :
    setDelete (setAdd fp P) fp = P := by
  unfold setAdd setDelete
  rw [if_neg h]
  have h2 : ∀ a ∈ P, decide (a ≠ fp) = true := by
    intro a ha
    simp only [decide_eq_true_eq]
    exact fun hh => h (hh ▸ ha)
  rw [List.filter_cons_of_neg (by simp), List.filter_eq_self.mpr h2]

theorem append_ne_self {l m : List Char} (hm : m ≠ []) : l ++ m ≠ l := by
  intro h
  have hl := congrArg List.length h
  simp only [List.length_append] at hl
  have : m.length = 0 := by omega
  exact hm (List.length_eq_zero.mp this)

theorem joinPath_append_ne (d f1 f2 m : List Char) (h : f1 ++ m ≠ f2) :
    joinPath d f1 ++ m ≠ joinPath d f2 := by
  unfold joinPath
  by_cases hd : d = []
  · rw [if_pos hd, if_pos hd]
    exact h
  · rw [if_neg hd, if_neg hd]
    intro he
    rw [List.append_assoc] at he
    have h2 := List.append_cancel_left he
    rw [List.cons_append] at h2
    injection h2 with _ h3
    exact h h3

theorem destMap_ne_rtl (p : List Char) :
    getDestPath p false ++ ".map".data ≠ getDestPath p true := by
  unfold getDestPath
  rw [show (if (false : Bool) then rtlSuffixStr else []) = ([] : List Char) from rfl,
    show (if (true : Bool) then rtlSuffixStr else []) = rtlSuffixStr from rfl]
  apply joinPath_append_ne
  intro h
  simp only [List.append_nil, List.append_assoc] at h
  have h2 := List.append_cancel_left h
  simp [rtlSuffixStr] at h2

/-- Claim C3: with the source unmodified and every destination artifact
present with an mtime at least the source's (the state right after a
successful `processFile`), an immediately following unforced call reports
not-stale and returns false, leaving the state untouched. -/
theorem processFile_idempotent (oracle : Oracle) (cwd : List Char) (st : PState)
    (fp : List Char) (s m : FileInfo)
    (hnotin : fp ∉ st.processing)
    (hsrc : statFS st.fs fp = some s)
    (hmain : statFS st.fs (getDestPath fp false) = some m)
    (hm : mtimeD s ≤ mtimeD m)
    (hrtl : extnameLower fp = CSS_EXT →
      ∃ r, statFS st.fs (getDestPath fp true) = some r ∧ mtimeD s ≤ mtimeD r) :
    processFile oracle cwd st fp false = (some false, st) := by
  unfold processFile
  rw [if_neg hnotin]
  by_cases hmin : containsSub ".min".data (parsePath fp).name = true
  · rw [if_pos hmin]
  · rw [if_neg hmin]
    have hstale : isSourceNewer st.fs fp = false := by
      unfold isSourceNewer
      simp only [hsrc, hmain]
      by_cases hcss : extnameLower fp = CSS_EXT ∧ RTL_enabled = true ∧
          RTL_generateSeparateFiles = true
      · obtain ⟨r, hr, hler⟩ := hrtl hcss.1
        rw [if_pos hcss]
        simp only [hr, Bool.or_eq_false_iff, decide_eq_false_iff_not, gt_iff_lt,
          not_lt]
        exact ⟨hm, hler⟩
      · rw [if_neg hcss]
        simp only [decide_eq_false_iff_not, gt_iff_lt, not_lt]
        exact hm
    rw [if_pos ⟨rfl, hstale⟩]

/-- Witness for C3 at a concrete fresh state. -/
theorem processFile_idempotent_witness :
    processFile oracleNone cwd0 stC3 "a.css".data false = (some false, stC3) :=
  processFile_idempotent oracleNone cwd0 stC3 "a.css".data
    ⟨".x".data, some 5⟩ ⟨".y".data, some 6⟩ (by decide) (by decide) (by decide)
    (by decide) (fun _ => ⟨⟨".z".data, some 7⟩, by decide, by decide⟩)

theorem processBody_processing (oracle : Oracle) (cwd : List Char) (st : PState)
    (fp : List Char) :
    (processBody oracle cwd st fp).2.processing = st.processing := by
  unfold processBody writeFS
  dsimp only
  repeat' split
  all_goals rfl

/-- Claim C9 (amended): `processFile` always restores the in-flight set it
was called with — in particular, when the path was not already in flight
on entry, it is not in the set after the call returns (the `finally`
cleanup), and the entry-guarded add never creates a duplicate.  The
original claim fails for the already-in-flight skip, where the call
returns immediately and the marker (held by the outer activation) stays in
the set — see the counterexample. -/
theorem processFile_processing_restored (oracle : Oracle) (cwd : List Char)
    (st : PState) (fp : List Char) (force : Bool) :
    (processFile oracle cwd st fp force).2.processing = st.processing
    ∧ (fp ∉ st.processing → fp ∉ (processFile oracle cwd st fp force).2.processing)
    ∧ (st.processing.Nodup → (setAdd fp st.processing).Nodup ∧
        (processFile oracle cwd st fp force).2.processing.Nodup) := by
  have hmain : (processFile oracle cwd st fp force).2.processing = st.processing := by
    unfold processFile
    split
    · rfl
    · split
      · rfl
      · split
        · rfl
        · rename_i hnotin hmin hfresh
          show (setDelete (processBody oracle cwd
            { st with processing := setAdd fp st.processing } fp).2.processing fp)
            = st.processing
          rw [processBody_processing]
          show setDelete (setAdd fp st.processing) fp = st.processing
          exact setDelete_setAdd hnotin
  refine ⟨hmain, fun h => by rw [hmain]; exact h, fun hnd => ⟨?_, by rw [hmain]; exact hnd⟩⟩
  unfold setAdd
  split
  · exact hnd
  · rename_i hnin
    exact List.Nodup.cons hnin hnd

/-- Claim C9 counterexample: calling `processFile` on a path that is
already in the in-flight set returns `false` and leaves the path in the
set — the "not a member after return" claim does not cover the
already-in-flight skip outcome. -/
theorem processFile_inflight_counterexample :
    processFile oracleNone cwd0 stC9 "a.css".data false = (some false, stC9)
    ∧ "a.css".data ∈ (processFile oracleNone cwd0 stC9 "a.css".data false).2.processing := by
  constructor
  · rfl
  · decide

/-- Claim C8 failing input: for an unsupported extension the `try` body
executes the bare `return;` of the source (line 303), so the call resolves
to `undefined` (modelled `none`) instead of a boolean — contradicting the
declared `Promise<boolean>` return type and the claim.  The in-flight set
is still cleaned up. -/
theorem processFile_undefined_on_unsupported :
    processFile oracleNone cwd0 stC8 "a.txt".data true = (none, stC8) := rfl

/-- Claim C7: for a CSS file whose LTR minification succeeds, a thrown RTL
transform does not change the overall outcome: `processFile` still returns
true, the LTR artifact holds exactly the LTR minified code with its
source-map comment, and the RTL destination is untouched. -/
theorem processFile_rtl_failure (oracle : Oracle) (cwd : List Char) (st : PState)
    (fp : List Char) (fi : FileInfo) (ltr : CssOut) (w : List Warn)
    (hnotin : fp ∉ st.processing)
    (hmin : containsSub ".min".data (parsePath fp).name = false)
    (hcss : extnameLower fp = CSS_EXT)
    (hsrc : statFS st.fs fp = some fi)
    (hltr : minifyCss st.fs cwd oracle fi.content fp false = Except.ok (ltr, w))
    (hrtl : ∀ code, oracle.transformCss fp code true = Except.error ()) :
    (processFile oracle cwd st fp true).1 = some true
    ∧ statFS (processFile oracle cwd st fp true).2.fs (getDestPath fp false)
        = some ⟨ltr.code ++ cssMapComment (getDestPath fp false ++ ".map".data),
            some st.now⟩
    ∧ statFS (processFile oracle cwd st fp true).2.fs (getDestPath fp true)
        = statFS st.fs (getDestPath fp true) := by
  have hg2 : ¬ (containsSub ".min".data (parsePath fp).name = true) := by simp [hmin]
  have hg3 : ¬ ((true : Bool) = false ∧ isSourceNewer st.fs fp = false) := by simp
  have hg4 : ¬ (extnameLower fp ≠ CSS_EXT ∧ extnameLower fp ≠ JS_EXT) :=
    fun hc => hc.1 hcss
  have hneOut : ¬ (getDestPath fp true = getDestPath fp false) :=
    fun h => getDestPath_ne fp h.symm
  have hneMapSelf : ¬ (getDestPath fp false = getDestPath fp false ++ ".map".data) :=
    fun h => append_ne_self (by decide) h.symm
  have hneMapRtl : ¬ (getDestPath fp true = getDestPath fp false ++ ".map".data) :=
    fun h => destMap_ne_rtl fp h.symm
  simp only [processFile, if_neg hnotin, if_neg hg2, if_neg hg3]
  simp only [processBody, if_neg hg4, hsrc, hltr, if_pos hcss]
  simp only [generateRtlCss, minifyCss, hrtl]
  cases hmap : ltr.map with
  | none =>
    simp only [writeFS]
    refine ⟨trivial, ?_, ?_⟩
    · exact statFS_fsWrite_self st.fs _ _ st.now
    · exact statFS_fsWrite_other st.fs _ st.now hneOut
  | some mp =>
    simp only [writeFS]
    refine ⟨trivial, ?_, ?_⟩
    · rw [statFS_fsWrite_other _ _ _ hneMapSelf]
      exact statFS_fsWrite_self st.fs _ _ st.now
    · rw [statFS_fsWrite_other _ _ _ hneMapRtl]
      exact statFS_fsWrite_other st.fs _ st.now hneOut

/-- Witness for C6 at a concrete declaration pair. -/
theorem rtlSubstitute_spec_witness :
    rtlSubstitute (".x ".data ++ "margin-left:".data ++ "; ".data ++
        "left:".data ++ " 1px;".data)
      = ".x ".data ++ "margin-inline-start:".data ++ "; ".data ++
          "inset-inline-start:".data ++ " 1px;".data
    ∧ containsSub "margin-inline-start:".data
        (rtlSubstitute (".x ".data ++ "margin-left:".data ++ "; ".data ++
          "left:".data ++ " 1px;".data)) = true
    ∧ containsSub "inset-inline-start:".data
        (rtlSubstitute (".x ".data ++ "margin-left:".data ++ "; ".data ++
          "left:".data ++ " 1px;".data)) = true :=
  rtlSubstitute_spec ".x ".data "; ".data " 1px;".data (by decide) (by decide)
    (by decide) (by decide) (by decide) (by decide)

/-- Witness for C7 at a concrete state and oracle whose RTL transform
always throws. -/
theorem processFile_rtl_failure_witness :
    (processFile oracleC7 cwd0 stC7 "a.css".data true).1 = some true
    ∧ statFS (processFile oracleC7 cwd0 stC7 "a.css".data true).2.fs
        (getDestPath "a.css".data false)
      = some ⟨".a x".data ++ cssMapComment (getDestPath "a.css".data false ++
          ".map".data), some stC7.now⟩
    ∧ statFS (processFile oracleC7 cwd0 stC7 "a.css".data true).2.fs
        (getDestPath "a.css".data true)
      = statFS stC7.fs (getDestPath "a.css".data true) :=
  processFile_rtl_failure oracleC7 cwd0 stC7 "a.css".data ⟨".a x".data, some 3⟩
    ⟨".a x".data, none⟩ [] (by decide) (by decide) (by decide) (by decide) rfl
    (fun _ => rfl)

/-- Claim C10: the watcher's per-event suppression is conditional on prior
registration of the `(directory, extension)` key.  For a matching event
(extension suffix, not a derived-artifact name): when the key is absent
from the watched-directories map, no suppression entry is created and the
event triggers a forced `processFile` call; when the key is present, a
suppressed path is dropped, and an unsuppressed path is added to the
suppression set and force-processed. -/
theorem handleWatchEvent_spec (ws : WatchState) (d e p : List Char)
    (h1 : isSfx e p = true)
    (h2 : containsSub ".min".data (parsePath p).name = false) :
    (lookupW ws.watched (dirKeyOf d e) = none →
      handleWatchEvent ws d e p = (some (p, true), ws))
    ∧ (∀ s, lookupW ws.watched (dirKeyOf d e) = some s → p ∈ s →
      handleWatchEvent ws d e p = (none, ws))
    ∧ (∀ s, lookupW ws.watched (dirKeyOf d e) = some s → p ∉ s →
      handleWatchEvent ws d e p = (some (p, true),
        ⟨updateW ws.watched (dirKeyOf d e) (setAdd p s)⟩)) := by
  have hg1 : ¬ (isSfx e p = false) := by simp [h1]
  have hg2 : ¬ (containsSub ".min".data (parsePath p).name = true) := by simp [h2]
  unfold handleWatchEvent
  rw [if_neg hg1, if_neg hg2]
  refine ⟨fun hn => by rw [hn],
    fun s hs hmem => by simp only [hs]; rw [if_pos hmem],
    fun s hs hmem => by simp only [hs]; rw [if_neg hmem]⟩

/-- Witness for C10: a registered key with a suppressed path drops the
event; the same event under an unregistered key is force-processed. -/
theorem handleWatchEvent_spec_witness :
    handleWatchEvent wsC10 "assets/css".data ".css".data "assets/css/a.css".data
      = (none, wsC10)
    ∧ handleWatchEvent ⟨[]⟩ "assets/css".data ".css".data "assets/css/a.css".data
      = (some ("assets/css/a.css".data, true), ⟨[]⟩) :=
  ⟨(handleWatchEvent_spec wsC10 "assets/css".data ".css".data
      "assets/css/a.css".data (by decide) (by decide)).2.1
      ["assets/css/a.css".data] (by decide) (by decide),
    (handleWatchEvent_spec ⟨[]⟩ "assets/css".data ".css".data
      "assets/css/a.css".data (by decide) (by decide)).1 (by decide)⟩

/-- Witness for the amended C5 claim: one `../`-prefixed double-quoted
definitions import inside at-rule-free text is removed. -/
theorem stripDefImports_removes_import_witness :
    stripDefImports (".a ".data ++ importStmt 1 dquote ++ " .b".data)
      = ".a ".data ++ " .b".data
    ∧ containsSub (importStmt 1 dquote)
        (fullInputOf [] cwd0 (".a ".data ++ importStmt 1 dquote ++ " .b".data)) = false :=
  stripDefImports_removes_import [] cwd0 ".a ".data " .b".data 1 dquote
    (Or.inr rfl) (by decide) (by decide) (by decide)

/-- Witness for the amended C9 claim at a concrete idle state. -/
theorem processFile_processing_restored_witness :
    ("b.css".data ∉ (⟨[], [], 0⟩ : PState).processing) ∧
    "b.css".data ∉
      (processFile oracleNone cwd0 (⟨[], [], 0⟩ : PState) "b.css".data false).2.processing :=
  ⟨by decide,
    (processFile_processing_restored oracleNone cwd0 ⟨[], [], 0⟩ "b.css".data false).2.1
      (by decide)⟩
